import Mathlib

/-!
Shallow embedding of the core of the service recommendation system
(data cleaning, categorical feature encoding, multi-method ranking,
match-quality classification) together with proofs of the behavioural
properties stated in its specification.

Conventions used throughout:
* Python floats are modelled exactly, over an arbitrary `LinearOrderedField`
  (instantiated at `ℚ` or `ℝ`); the square roots occurring in the cosine and
  Euclidean computations force `ℝ` there.
* Python dicts keyed by column names are modelled as `String → Option String`
  or as association lists with `List.lookup`.
* Python string casing (`str.lower`, `str.title`, `str.strip`) is modelled at
  the ASCII level, which is exactly how every catalog value and synonym key in
  the source behaves.
* `pandas.DataFrame.sort_values(..., ascending=False)` with its default
  `kind='quicksort'` guarantees a descending arrangement but not a stable one,
  so the ranking step is modelled by the relation `rank_services`, which holds
  of every output the library call may produce: some descending permutation of
  the scored catalog, truncated to the requested length.
-/

namespace RecSys

/-! ### ASCII model of Python string casing (`data_cleaner.py`, `encoder.py`) -/

/-- Lower-casing of one character, as Python `str.lower` acts on ASCII
(mirrors `Char.toLower`): letters `A`–`Z` (codes 65–90) move down by 32. -/
def lowerChar (c : Char) : Char :=
  if 65 ≤ c.toNat ∧ c.toNat ≤ 90 then Char.ofNat (c.toNat + 32) else c

/-- Upper-casing of one character, as Python `str.upper` acts on ASCII:
letters `a`–`z` (codes 97–122) move up by 32. -/
def upperChar (c : Char) : Char :=
  if 97 ≤ c.toNat ∧ c.toNat ≤ 122 then Char.ofNat (c.toNat - 32) else c

/-- ASCII letter test, Python's notion of a cased character restricted to
ASCII (the only characters `str.title` treats as word constituents there). -/
def alphaChar (c : Char) : Bool :=
  decide ((65 ≤ c.toNat ∧ c.toNat ≤ 90) ∨ (97 ≤ c.toNat ∧ c.toNat ≤ 122))

/-- Whitespace stripped by Python `str.strip` (ASCII part). -/
def spaceChar (c : Char) : Bool :=
  decide (c = ' ' ∨ c = '\t' ∨ c = '\n' ∨ c = '\x0d' ∨ c = '\x0b' ∨ c = '\x0c')

/-- Python `str.lower` on a string (ASCII model). -/
def lowerStr (s : String) : String :=
  ⟨s.data.map lowerChar⟩

/-- Python `str.strip` on a string (ASCII model). -/
def stripStr (s : String) : String :=
  ⟨((s.data.dropWhile spaceChar).reverse.dropWhile spaceChar).reverse⟩

/-- Auxiliary recursion for `titleStr`: the flag records whether the previous
character was a (ASCII) letter; a letter after a non-letter is upper-cased,
any other letter is lower-cased, non-letters pass through. -/
def titleAux : Bool → List Char → List Char
  | _, [] => []
  | prev, c :: cs =>
    (if alphaChar c then (if prev then lowerChar c else upperChar c) else c) ::
      titleAux (alphaChar c) cs

/-- Python `str.title` on a string (ASCII model). -/
def titleStr (s : String) : String :=
  ⟨titleAux false s.data⟩

/-! ### Category standardization

`DataPreprocessor.standardize_categories` (catalog side, `data_cleaner.py`)
and `UserInputProcessor.standardize_input` (user side, `encoder.py`). -/

/-- The four categorical attributes, in the column order of the dataset. -/
inductive PrefAttr
  | business
  | price
  | language
  | location
deriving DecidableEq

/-- Catalog-side price synonym table of `standardize_categories`. -/
def priceCatalogPairs : List (String × String) :=
  [("low", "Low"), ("medium", "Medium"), ("med", "Medium"), ("high", "High"),
   ("expensive", "High"), ("cheap", "Low"), ("affordable", "Low")]

/-- Catalog-side language synonym table of `standardize_categories`. -/
def langCatalogPairs : List (String × String) :=
  [("hindi", "Hindi"), ("english", "English"), ("both", "Both"),
   ("bilingual", "Both"), ("hindi/english", "Both"), ("english/hindi", "Both")]

/-- User-side price table of `standardize_input`. -/
def priceUserPairs : List (String × String) :=
  [("low", "Low"), ("medium", "Medium"), ("high", "High")]

/-- User-side language table of `standardize_input`. -/
def langUserPairs : List (String × String) :=
  [("hindi", "Hindi"), ("english", "English"), ("both", "Both")]

/-- Replacement applied to the catalog's location column after title-casing:
`Online`, `Virtual` and `Anywhere` become `Remote`. -/
def locationReplace (s : String) : String :=
  if s = "Online" ∨ s = "Virtual" ∨ s = "Anywhere" then "Remote" else s

/-- Per-value action of `DataPreprocessor.standardize_categories` on one cell
of the corresponding catalog column. -/
def standardize_categories : PrefAttr → String → String
  | .business, s => titleStr (stripStr s)
  | .price, s => ((priceCatalogPairs.lookup (lowerStr s)).getD (titleStr (lowerStr s)))
  | .language, s => ((langCatalogPairs.lookup (lowerStr s)).getD (titleStr (lowerStr s)))
  | .location, s => locationReplace (titleStr (stripStr s))

/-- Per-value action of `UserInputProcessor.standardize_input` on one user
preference value. -/
def standardize_input : PrefAttr → String → String
  | .business, s => titleStr (stripStr s)
  | .price, s => ((priceUserPairs.lookup (lowerStr s)).getD (titleStr s))
  | .language, s => ((langUserPairs.lookup (lowerStr s)).getD (titleStr s))
  | .location, s => titleStr (stripStr s)

/-! ### Categorical feature encoder (`encoder.py`) -/

/-- Code-point lexicographic comparison of strings, the order by which
`np.unique` sorts Python strings. -/
def strLeChars : List Char → List Char → Bool
  | [], _ => true
  | _ :: _, [] => false
  | a :: as, b :: bs =>
    if a.toNat < b.toNat then true
    else if b.toNat < a.toNat then false
    else strLeChars as bs

/-- Ordered insertion used to model the sorting performed by
`sklearn.LabelEncoder.fit` (`classes_ = np.unique(values)`). -/
def insertSorted (x : String) : List String → List String
  | [] => [x]
  | y :: ys => if strLeChars x.data y.data then x :: y :: ys else y :: insertSorted x ys

/-- Insertion sort on strings. -/
def sortStrings (l : List String) : List String :=
  l.foldr insertSorted []

/-- `FeatureEncoder.fit` for one attribute: the fitted vocabulary is the
sorted list of distinct observed values (`LabelEncoder.classes_`). -/
def fitVocab (values : List String) : List String :=
  sortStrings values.dedup

/-- `FeatureEncoder.safe_encode`: the code of a value is its index in the
fitted vocabulary (`LabelEncoder.transform`), and `-1` for a value absent
from the vocabulary (the `ValueError` branch). -/
def safe_encode : List String → String → Int
  | [], _ => -1
  | v :: rest, x =>
    if x = v then 0
    else if safe_encode rest x = -1 then -1 else safe_encode rest x + 1

/-! ### Data model of the encoded catalog (`ranking_engine.py`) -/

/-- Names of the four categorical feature columns, in the dataframe's column
order (also the iteration order of `feature_cols` and of the encoder's
`label_encoders` dict). -/
def featureNames : List String :=
  ["Target_Business_Type", "Price_Category", "Language_Support", "Location_Area"]

/-- Name of the `i`-th categorical feature column. -/
def attrName : Fin 4 → String :=
  !["Target_Business_Type", "Price_Category", "Language_Support", "Location_Area"]

/-- One row of the encoded catalog: the four categorical string values plus
the four `*_encoded` integer columns appended by `FeatureEncoder.transform`. -/
structure Row where
  business : String
  price : String
  language : String
  location : String
  codes : Fin 4 → Int

/-- The raw string value of the `i`-th categorical attribute of a row. -/
def Row.value (r : Row) : Fin 4 → String :=
  ![r.business, r.price, r.language, r.location]

/-- Column access on a row by column name, as `service_row[feature]` guarded
by `feature in service_row.index`: `some` for the four categorical columns,
`none` for any other name. -/
def Row.attr (r : Row) (name : String) : Option String :=
  if name = "Target_Business_Type" then some r.business
  else if name = "Price_Category" then some r.price
  else if name = "Language_Support" then some r.language
  else if name = "Location_Area" then some r.location
  else none

/-! ### Weighted similarity (`ServiceRankingEngine.compute_weighted_similarity`) -/

/-- Weight lookup `self.weights.get(feature_name, 0.25)`. -/
def weightsGet {α : Type} [LinearOrderedField α] (w : List (String × α)) (name : String) : α :=
  (w.lookup name).getD (1/4)

/-- Default weight dict of `ServiceRankingEngine.__init__`. -/
def defaultWeights {α : Type} [LinearOrderedField α] : List (String × α) :=
  [("Target_Business_Type", 35/100), ("Price_Category", 25/100),
   ("Language_Support", 20/100), ("Location_Area", 20/100)]

/-- Score of a single catalog row under the weighted method: the source loops
over the feature columns, adding `weight * (service_value == user_value)` for
each (the source adds the per-feature contribution to every row of a score
vector at once; per row this is exactly the fold below). -/
def weightedRowScore {α : Type} [LinearOrderedField α]
    (w : List (String × α)) (u : Fin 4 → Int) (codes : Fin 4 → Int) : α :=
  (List.finRange 4).foldl
    (fun acc i => acc + weightsGet w (attrName i) * (if codes i = u i then 1 else 0)) 0

/-- `compute_weighted_similarity`: one score per catalog row. -/
def compute_weighted_similarity {α : Type} [LinearOrderedField α]
    (w : List (String × α)) (cat : List Row) (u : Fin 4 → Int) : List α :=
  cat.map (fun r => weightedRowScore w u r.codes)

/-! ### Match quality (`MatchQualityGenerator`) -/

/-- Loop of `calculate_match_score` counting the exact attribute matches:
a feature counts when it is present in the user dict and among the row's
columns and the two values agree up to `str.lower`. -/
def exactMatchesAux (uIn : String → Option String) (rAttr : String → Option String) :
    List String → Nat → Nat
  | [], acc => acc
  | f :: fs, acc =>
    exactMatchesAux uIn rAttr fs
      (match rAttr f, uIn f with
       | some b, some a => if lowerStr b = lowerStr a then acc + 1 else acc
       | _, _ => acc)

/-- Predicate form of one iteration of the counting loop (used to state the
specification's closed-form count). -/
def isExactMatch (uIn : String → Option String) (rAttr : String → Option String)
    (f : String) : Bool :=
  match rAttr f, uIn f with
  | some b, some a => lowerStr b = lowerStr a
  | _, _ => false

/-- `MatchQualityGenerator.calculate_match_score`: bounded match score
`min(1.0, similarity + (exact_matches / 4) * 0.2)`. -/
def calculate_match_score {α : Type} [LinearOrderedField α]
    (uIn : String → Option String) (rAttr : String → Option String) (sim : α) : α :=
  min 1 (sim + ((exactMatchesAux uIn rAttr featureNames 0 : α) / 4) * (2/10))

/-- Threshold dict of `MatchQualityGenerator` (the `Low` entry is never
consulted by `determine_match_quality`). -/
structure Thresholds (α : Type) where
  high : α
  medium : α

/-- Default thresholds `{'High': 0.75, 'Medium': 0.50}`. -/
def defaultThresholds {α : Type} [LinearOrderedField α] : Thresholds α :=
  ⟨3/4, 1/2⟩

/-- `MatchQualityGenerator.determine_match_quality`. -/
def determine_match_quality {α : Type} [LinearOrderedField α]
    (t : Thresholds α) (s : α) : String :=
  if s ≥ t.high then "High" else if s ≥ t.medium then "Medium" else "Low"

/-! ### Cosine and nearest-neighbour similarity (`compute_similarity_scores`)

These require real square roots, hence live in `ℝ`. -/

/-- Dot product of two coded vectors, over `ℝ`. -/
noncomputable def dotProd (u v : Fin 4 → Int) : ℝ :=
  ∑ i, (u i : ℝ) * (v i : ℝ)

/-- Euclidean norm of a coded vector. -/
noncomputable def vecNorm (u : Fin 4 → Int) : ℝ :=
  Real.sqrt (∑ i, (u i : ℝ) ^ 2)

/-- Cosine similarity as computed by `sklearn.metrics.pairwise.
cosine_similarity`; a zero vector is left unnormalized there, producing
similarity `0`, which agrees with Lean's `x / 0 = 0` convention. -/
noncomputable def cosineSim (u v : Fin 4 → Int) : ℝ :=
  dotProd u v / (vecNorm u * vecNorm v)

/-- Euclidean distance `np.linalg.norm(row - user)`. -/
noncomputable def euclidDist (u v : Fin 4 → Int) : ℝ :=
  Real.sqrt (∑ i, ((u i : ℝ) - (v i : ℝ)) ^ 2)

/-- Similarity used by the `knn` branch: `1 / (1 + distance)`. -/
noncomputable def knnSim (u v : Fin 4 → Int) : ℝ :=
  1 / (1 + euclidDist u v)

/-- `ServiceRankingEngine.compute_similarity_scores`: dispatch on the method
name, scoring every row; any name other than `cosine` or `knn` raises
`ValueError(f"Unknown method: {method}")`. -/
noncomputable def compute_similarity_scores (cat : List Row) (u : Fin 4 → Int)
    (method : String) : Except String (List ℝ) :=
  if method = "cosine" then .ok (cat.map (fun r => cosineSim u r.codes))
  else if method = "knn" then .ok (cat.map (fun r => knnSim u r.codes))
  else .error ("Unknown method: " ++ method)

/-- Score computation step of `rank_services`: the `weighted` method is
handled directly, every other name is delegated to
`compute_similarity_scores`. -/
noncomputable def rankScores (w : List (String × ℝ)) (cat : List Row) (u : Fin 4 → Int)
    (method : String) : Except String (List ℝ) :=
  if method = "weighted" then .ok (compute_weighted_similarity w cat u)
  else compute_similarity_scores cat u method

/-! ### Ranking (`ServiceRankingEngine.rank_services`)

`rank_services` attaches the scores as a `similarity_score` column, calls
`sort_values('similarity_score', ascending=False)` and takes `head(top_n)`.
`sort_values` keeps the original dataframe index attached to each row, so the
sorted object is modelled as a list of `(original index × row) × score`
entries.  The default sort kind `'quicksort'` guarantees only a descending
arrangement, not stability, so the step is modelled relationally: the
predicate below holds of exactly the outputs the library call is allowed to
return. -/

/-- A list of scored rows is arranged in descending score order. -/
def SortedDesc (l : List ((Nat × Row) × ℝ)) : Prop :=
  l.Chain' (fun a b => b.2 ≤ a.2)

/-- `rank_services cat u n method out`: `out` is a possible result of
`ServiceRankingEngine.rank_services` — the whole catalog is scored by the
selected method, some descending rearrangement of the scored catalog is
formed, and its first `top_n` entries are returned. -/
def rank_services (w : List (String × ℝ)) (cat : List Row) (u : Fin 4 → Int)
    (n : Nat) (method : String) (out : List ((Nat × Row) × ℝ)) : Prop :=
  ∃ scores sorted, rankScores w cat u method = .ok scores ∧
    sorted.Perm (cat.enum.zip scores) ∧ SortedDesc sorted ∧ out = sorted.take n

/-- `ServiceRankingEngine.filter_services`: exact (case-insensitive)
business-type pre-filter with fallback to the full catalog when nothing
matches.  (Defined for reference: neither `rank_services` nor
`RecommendationEngine.get_recommendations` ever calls it.) -/
def filter_services (cat : List Row) (uIn : String → Option String) : List Row :=
  match uIn ("Target_Business_Type") with
  | some b =>
    let f := cat.filter (fun r => lowerStr r.business = lowerStr b)
    if f.isEmpty then cat else f
  | none => cat

/-- `MatchQualityGenerator.generate_quality_metrics`: each ranked row receives
its bounded match score and quality label. -/
noncomputable def generate_quality_metrics (uIn : String → Option String)
    (ranked : List ((Nat × Row) × ℝ)) : List ((Nat × Row) × ℝ × ℝ × String) :=
  ranked.map (fun p =>
    let m := calculate_match_score uIn p.1.2.attr p.2
    (p.1, p.2, m, determine_match_quality defaultThresholds m))

/-- `FeatureEncoder.get_feature_vector`: the user's preference dict is encoded
attribute by attribute against the fitted vocabularies; an attribute missing
from the dict contributes the sentinel `-1`. -/
def get_feature_vector (vocabs : Fin 4 → List String) (uIn : String → Option String) :
    Fin 4 → Int :=
  fun i =>
    match uIn (attrName i) with
    | some v => safe_encode (vocabs i) v
    | none => -1

/-! ### Concrete data used in closed witnesses and counterexamples

`rowTech` and `rowFin` carry the codes that `FeatureEncoder.fit_transform`
assigns to the two-row catalog `[rowTech, rowFin]` (vocabularies are sorted,
so `Finance ↦ 0, Technology ↦ 1` and `High ↦ 0, Low ↦ 1`). -/

/-- A `Technology / High / Both / Mumbai` service row with its codes. -/
def rowTech : Row :=
  ⟨"Technology", "High", "Both", "Mumbai", ![1, 0, 0, 0]⟩

/-- A `Finance / Low / Both / Mumbai` service row with its codes. -/
def rowFin : Row :=
  ⟨"Finance", "Low", "Both", "Mumbai", ![0, 1, 0, 0]⟩

/-- A user preference dict requesting the business type `Aviation`, which is
absent from the catalog `[rowTech, rowFin]`. -/
def userAviation : String → Option String := fun name =>
  if name = "Target_Business_Type" then some ("Aviation")
  else if name = "Price_Category" then some ("High")
  else if name = "Language_Support" then some ("Both")
  else if name = "Location_Area" then some ("Mumbai")
  else none

/-- The encoded vector of `userAviation` against the vocabularies fitted on
`[rowTech, rowFin]`: the unknown business type encodes to the sentinel. -/
def uvecAviation : Fin 4 → Int :=
  ![-1, 0, 0, 0]

/-- The two-row catalog whose fitted vocabularies give `rowTech` and `rowFin`
their codes. -/
def catC3 : List Row :=
  [rowTech, rowFin]

/-- The cosine ranking output on `catC3` for the `userAviation` vector:
`rowFin` scores `0`, `rowTech` scores `-1`. -/
def cosOut : List ((Nat × Row) × ℝ) :=
  [((1, rowFin), 0), ((0, rowTech), -1)]

/-- The weighted self-similarity score of `rowTech` (used as a concrete tied
score in witnesses). -/
noncomputable def tieScore : ℝ :=
  weightedRowScore (defaultWeights (α := ℝ)) rowTech.codes rowTech.codes

/-- A ranking output on the two-copy catalog `[rowTech, rowTech]` whose tied
rows appear in reversed index order. -/
noncomputable def tieOut : List ((Nat × Row) × ℝ) :=
  [((1, rowTech), tieScore), ((0, rowTech), tieScore)]

/-! ### Helper lemmas -/

/-- Accumulating fold of additions is the initial value plus the sum. -/
theorem foldl_add_eq_sum {α : Type} [AddCommMonoid α] {β : Type} (f : β → α) :
    ∀ (l : List β) (init : α),
      l.foldl (fun acc b => acc + f b) init = init + (l.map f).sum
  | [], init => by simp
  | b :: bs, init => by
    rw [List.foldl_cons, foldl_add_eq_sum f bs (init + f b), List.map_cons, List.sum_cons,
      add_assoc]

/-- The per-row weighted score is the sum, over the four features, of the
feature's weight times its match indicator. -/
theorem weightedRowScore_eq_sum {α : Type} [LinearOrderedField α]
    (w : List (String × α)) (u codes : Fin 4 → Int) :
    weightedRowScore w u codes =
      ∑ i : Fin 4, (if codes i = u i then weightsGet w (attrName i) else 0) := by
  rw [weightedRowScore, foldl_add_eq_sum, zero_add, ← Fin.sum_univ_def]
  refine Finset.sum_congr rfl fun i _ => ?_
  rw [mul_ite, mul_one, mul_zero]

/-- The match-counting loop of `calculate_match_score` computes the length of
the filtered feature list, shifted by the accumulator. -/
theorem exactMatchesAux_eq_filter (uIn rAttr : String → Option String) :
    ∀ (l : List String) (acc : Nat),
      exactMatchesAux uIn rAttr l acc = acc + (l.filter (isExactMatch uIn rAttr)).length
  | [], acc => by simp [exactMatchesAux]
  | f :: fs, acc => by
    rw [exactMatchesAux, List.filter_cons]
    rcases hb : rAttr f with _ | b <;> rcases ha : uIn f with _ | a <;>
      simp only [isExactMatch, hb, ha, decide_eq_true_eq] <;>
      simp only [exactMatchesAux_eq_filter uIn rAttr fs] <;>
      first
        | rfl
        | (split <;> simp +arith [List.length_cons])

/-! ### C1: weighted similarity is the sum of matched attribute weights -/

/-- C1: for every encoded catalog and user vector, the weighted method scores
each row by the sum, over the four categorical attributes, of the attribute's
configured weight when the row's code equals the user's code and `0`
otherwise; a row agreeing with the user on all coded attributes scores the
sum of the configured weights, which is `1` under the default weights
`0.35, 0.25, 0.20, 0.20`. -/
theorem weighted_similarity_spec {α : Type} [LinearOrderedField α]
    (w : List (String × α)) (cat : List Row) (u : Fin 4 → Int) :
    compute_weighted_similarity w cat u =
        cat.map (fun r =>
          ∑ i : Fin 4, (if r.codes i = u i then weightsGet w (attrName i) else 0)) ∧
      (∀ r : Row, (∀ i, r.codes i = u i) →
        weightedRowScore w u r.codes = ∑ i : Fin 4, weightsGet w (attrName i)) ∧
      (∀ r : Row, (∀ i, r.codes i = u i) →
        weightedRowScore (defaultWeights (α := α)) u r.codes = 1) := by
  refine ⟨?_, fun r h => ?_, fun r h => ?_⟩
  · rw [compute_weighted_similarity]
    exact List.map_congr_left fun r _ => weightedRowScore_eq_sum w u r.codes
  · rw [weightedRowScore_eq_sum]
    exact Finset.sum_congr rfl fun i _ => if_pos (h i)
  · rw [weightedRowScore_eq_sum]
    have hs : ∀ i : Fin 4,
        (if r.codes i = u i then weightsGet (defaultWeights (α := α)) (attrName i) else 0) =
          weightsGet (defaultWeights (α := α)) (attrName i) :=
      fun i => if_pos (h i)
    rw [Finset.sum_congr rfl fun i _ => hs i, Fin.sum_univ_four]
    simp [weightsGet, defaultWeights, attrName, List.lookup]
    norm_num

/-- Witness for `weighted_similarity_spec` at a concrete full-match row. -/
theorem weighted_similarity_spec_witness :
    weightedRowScore (defaultWeights (α := ℚ)) ![1, 0, 2, 0] ![1, 0, 2, 0] = 1 :=
  (weighted_similarity_spec (defaultWeights (α := ℚ)) []
      ![1, 0, 2, 0]).2.2 ⟨"Tech", "Low", "Both", "Mumbai", ![1, 0, 2, 0]⟩ (fun _ => rfl)

/-! ### C2: the bounded match score formula -/

/-- C2: for every user preference dict, service row and raw similarity score,
`calculate_match_score` returns
`min(1, similarity + (exactMatches / 4) * 0.2)` where `exactMatches` is the
number of categorical attributes present on both sides whose values agree
case-insensitively. -/
theorem match_score_spec {α : Type} [LinearOrderedField α]
    (uIn rAttr : String → Option String) (sim : α) :
    calculate_match_score uIn rAttr sim =
      min 1 (sim +
        (((featureNames.filter (isExactMatch uIn rAttr)).length : α) / 4) * (2/10)) := by
  rw [calculate_match_score, exactMatchesAux_eq_filter, Nat.zero_add]

/-! ### C4: quality tiers with inclusive lower bounds -/

/-- C4: under the default thresholds, `determine_match_quality` yields `High`
exactly on scores `≥ 0.75`, `Medium` exactly on scores in `[0.50, 0.75)` and
`Low` exactly on scores `< 0.50`; the boundary scores `0.75` and `0.50`
belong to the higher tier and `0.4999` is `Low`. -/
theorem match_quality_spec (s : ℝ) :
    (determine_match_quality defaultThresholds s = "High" ↔ 3/4 ≤ s) ∧
      (determine_match_quality defaultThresholds s = "Medium" ↔ 1/2 ≤ s ∧ s < 3/4) ∧
      (determine_match_quality defaultThresholds s = "Low" ↔ s < 1/2) ∧
      determine_match_quality defaultThresholds ((75 : ℝ)/100) = "High" ∧
      determine_match_quality defaultThresholds ((50 : ℝ)/100) = "Medium" ∧
      determine_match_quality defaultThresholds ((4999 : ℝ)/10000) = "Low" := by
  have hHM : ("High" : String) ≠ "Medium" := by decide
  have hHL : ("High" : String) ≠ "Low" := by decide
  have hML : ("Medium" : String) ≠ "Low" := by decide
  refine ⟨?_, ?_, ?_, ?_, ?_, ?_⟩
  · rw [determine_match_quality, defaultThresholds]
    split
    · next h => simpa using h
    · next h =>
      simp only [ge_iff_le, not_le] at h
      constructor
      · intro he
        exfalso
        split at he
        · exact hHM he.symm
        · exact hHL he.symm
      · intro hle
        exact absurd (lt_of_le_of_lt hle h) (lt_irrefl _)
  · rw [determine_match_quality, defaultThresholds]
    split
    · next h =>
      simp only [ge_iff_le] at h
      constructor
      · intro he
        exact absurd he hHM
      · rintro ⟨-, hlt⟩
        exact absurd (lt_of_lt_of_le hlt h) (lt_irrefl _)
    · next h =>
      simp only [ge_iff_le, not_le] at h
      split
      · next h2 =>
        simp only [ge_iff_le] at h2
        refine iff_of_true rfl ⟨by linarith, by linarith⟩
      · next h2 =>
        simp only [ge_iff_le, not_le] at h2
        constructor
        · intro he
          exact absurd he.symm hML
        · rintro ⟨hle, -⟩
          exact absurd (lt_of_le_of_lt hle h2) (lt_irrefl _)
  · rw [determine_match_quality, defaultThresholds]
    split
    · next h =>
      simp only [ge_iff_le] at h
      constructor
      · intro he
        exact absurd he hHL
      · intro hlt
        have : (1:ℝ)/2 < 3/4 := by norm_num
        exact absurd (lt_of_lt_of_le (lt_trans hlt this) h) (lt_irrefl _)
    · next h =>
      split
      · next h2 =>
        simp only [ge_iff_le] at h2
        constructor
        · intro he
          exact absurd he hML
        · intro hlt
          exact absurd (lt_of_lt_of_le hlt h2) (lt_irrefl _)
      · next h2 =>
        simp only [ge_iff_le, not_le] at h2
        exact iff_of_true rfl (by linarith)
  · rw [determine_match_quality, defaultThresholds]
    norm_num
  · rw [determine_match_quality, defaultThresholds]
    norm_num
  · rw [determine_match_quality, defaultThresholds]
    norm_num

/-! ### Ranking lemmas -/

/-- Every method that succeeds scores the whole catalog: one score per row. -/
theorem rankScores_length (w : List (String × ℝ)) (cat : List Row) (u : Fin 4 → Int)
    (method : String) (scores : List ℝ) (h : rankScores w cat u method = .ok scores) :
    scores.length = cat.length := by
  rw [rankScores] at h
  split at h
  · simp only [Except.ok.injEq] at h
    subst h
    simp [compute_weighted_similarity]
  · rw [compute_similarity_scores] at h
    split at h
    · simp only [Except.ok.injEq] at h
      subst h
      simp
    · split at h
      · simp only [Except.ok.injEq] at h
        subst h
        simp
      · exact absurd h (by simp)

/-- A concrete successful ranking run on the one-row catalog `[rowTech]` with
`top_n = 5`, shared by the witnesses of the ranking theorems. -/
theorem rank_inst_single :
    rank_services (defaultWeights (α := ℝ)) [rowTech] rowTech.codes 5 "weighted"
      [((0, rowTech), tieScore)] := by
  refine ⟨[tieScore], [((0, rowTech), tieScore)], ?_, ?_, ?_, rfl⟩
  · simp [rankScores, compute_weighted_similarity, tieScore]
  · exact List.Perm.refl _
  · exact List.chain'_singleton _

/-! ### C7: method dispatch -/

/-- C7: any method name outside `{weighted, cosine, knn}` makes the scoring
step of `rank_services` fail with the unknown-method error before any result
is produced, while each of the three supported names yields a score list. -/
theorem method_dispatch_spec (w : List (String × ℝ)) (cat : List Row) (u : Fin 4 → Int)
    (method : String) :
    (method ∉ (["weighted", "cosine", "knn"] : List String) →
      rankScores w cat u method = .error ("Unknown method: " ++ method)) ∧
    (method ∈ (["weighted", "cosine", "knn"] : List String) →
      ∃ scores, rankScores w cat u method = .ok scores) := by
  constructor
  · intro hm
    simp only [List.mem_cons, List.not_mem_nil, or_false, not_or] at hm
    obtain ⟨h1, h2, h3⟩ := hm
    rw [rankScores, if_neg h1, compute_similarity_scores, if_neg h2, if_neg h3]
  · intro hm
    simp only [List.mem_cons, List.not_mem_nil, or_false] at hm
    rcases hm with h | h | h <;> subst h
    · exact ⟨_, by rw [rankScores, if_pos rfl]⟩
    · exact ⟨_, by rw [rankScores, if_neg (by decide), compute_similarity_scores, if_pos rfl]⟩
    · exact ⟨_, by rw [rankScores, if_neg (by decide), compute_similarity_scores,
        if_neg (by decide), if_pos rfl]⟩

/-- Witness for `method_dispatch_spec`: `euclidean` is rejected with the
unknown-method error, `cosine` succeeds. -/
theorem method_dispatch_spec_witness :
    rankScores (defaultWeights (α := ℝ)) [] (fun _ => 0) ("euclidean") =
        .error ("Unknown method: " ++ "euclidean") ∧
      ∃ scores, rankScores (defaultWeights (α := ℝ)) [] (fun _ => 0) ("cosine") = .ok scores :=
  ⟨(method_dispatch_spec _ _ _ _).1 (by decide),
   (method_dispatch_spec _ _ _ _).2 (by decide)⟩

/-! ### C6: the result size is `min n m` -/

/-- Every list of scored rows has a descending rearrangement, so a ranking
output always exists. -/
theorem exists_sorted_desc (l : List ((Nat × Row) × ℝ)) :
    ∃ sorted, sorted.Perm l ∧ SortedDesc sorted := by
  classical
  refine ⟨l.mergeSort (fun a b => decide (b.2 ≤ a.2)), List.mergeSort_perm l _, ?_⟩
  haveI : IsTrans ((Nat × Row) × ℝ) (fun a b => b.2 ≤ a.2) :=
    ⟨fun _ _ _ h1 h2 => le_trans h2 h1⟩
  rw [SortedDesc, List.chain'_iff_pairwise]
  have hpw := @List.sorted_mergeSort ((Nat × Row) × ℝ) (fun a b => decide (b.2 ≤ a.2))
    (fun a b c hab hbc => by
      simp only [decide_eq_true_eq] at hab hbc ⊢
      exact le_trans hbc hab)
    (fun a b => by
      simp only [Bool.or_eq_true, decide_eq_true_eq]
      exact le_total b.2 a.2) l
  exact hpw.imp fun h => of_decide_eq_true h

/-- Any ranking output has exactly `min n m` entries. -/
theorem rank_output_length (w : List (String × ℝ)) (cat : List Row) (u : Fin 4 → Int)
    (n : Nat) (method : String) (out : List ((Nat × Row) × ℝ))
    (h : rank_services w cat u n method out) : out.length = min n cat.length := by
  obtain ⟨scores, sorted, hok, hperm, hsort, hout⟩ := h
  have hlen : scores.length = cat.length := rankScores_length w cat u method scores hok
  have hslen : sorted.length = cat.length := by
    rw [hperm.length_eq, List.length_zip, List.enum_length, hlen, min_self]
  rw [hout, List.length_take, hslen]

/-- C6: every possible output of `rank_services` on a catalog of `m` rows with
requested count `n` has exactly `min n m` rows — the count is clamped to the
catalog size, nothing is padded — and for each of the three supported methods
an output does exist (no error is raised). -/
theorem rank_count_spec (w : List (String × ℝ)) (cat : List Row) (u : Fin 4 → Int)
    (n : Nat) (method : String) :
    (∀ out, rank_services w cat u n method out → out.length = min n cat.length) ∧
      (method ∈ (["weighted", "cosine", "knn"] : List String) →
        ∃ out, rank_services w cat u n method out) := by
  constructor
  · exact fun out h => rank_output_length w cat u n method out h
  · intro hm
    have hok : ∃ scores, rankScores w cat u method = .ok scores := by
      simp only [List.mem_cons, List.not_mem_nil, or_false] at hm
      rcases hm with h | h | h <;> subst h
      · exact ⟨_, by rw [rankScores, if_pos rfl]⟩
      · exact ⟨_, by rw [rankScores, if_neg (by decide), compute_similarity_scores,
          if_pos rfl]⟩
      · exact ⟨_, by rw [rankScores, if_neg (by decide), compute_similarity_scores,
          if_neg (by decide), if_pos rfl]⟩
    obtain ⟨scores, hok⟩ := hok
    obtain ⟨sorted, hperm, hsort⟩ := exists_sorted_desc (cat.enum.zip scores)
    exact ⟨sorted.take n, scores, sorted, hok, hperm, hsort, rfl⟩

/-- Witness for `rank_count_spec`: requesting `n = 5` from a one-row catalog
returns exactly `min 5 1 = 1` row, and an output exists. -/
theorem rank_count_spec_witness :
    rank_services (defaultWeights (α := ℝ)) [rowTech] rowTech.codes 5 "weighted"
        [((0, rowTech), tieScore)] ∧
      ([((0, rowTech), tieScore)] : List ((Nat × Row) × ℝ)).length = min 5 1 ∧
      ∃ out, rank_services (defaultWeights (α := ℝ)) [rowTech] rowTech.codes 5 "weighted" out :=
  ⟨rank_inst_single,
   (rank_count_spec (defaultWeights (α := ℝ)) [rowTech] rowTech.codes 5 "weighted").1
     [((0, rowTech), tieScore)] rank_inst_single,
   (rank_count_spec (defaultWeights (α := ℝ)) [rowTech] rowTech.codes 5 "weighted").2
     (by decide)⟩

/-! ### C5: descending order holds, stable tie-breaking does not -/

/-- C5 (counterexample): on the two-copy catalog `[rowTech, rowTech]` both
rows receive the same weighted score, and the output listing original index
`1` before original index `0` is a legitimate result of `rank_services` —
`sort_values` with its default `kind='quicksort'` guarantees no tie order —
yet its equal-scored rows are not in original catalog order. -/
theorem rank_ties_not_stable :
    rank_services (defaultWeights (α := ℝ)) [rowTech, rowTech] rowTech.codes 2 "weighted"
        tieOut ∧
      ¬ tieOut.Pairwise (fun a b => a.2 = b.2 → a.1.1 < b.1.1) := by
  constructor
  · refine ⟨[tieScore, tieScore], tieOut, ?_, ?_, ?_, rfl⟩
    · simp [rankScores, compute_weighted_similarity, tieScore]
    · exact List.Perm.swap _ _ _
    · exact List.chain'_pair.mpr le_rfl
  · intro h
    rw [tieOut, List.pairwise_cons] at h
    have h10 := h.1 ((0, rowTech), tieScore) (List.mem_singleton.mpr rfl) rfl
    exact absurd h10 (by decide)

/-- C5 (amended): every possible output of `rank_services` consists of
`min n m` genuinely scored catalog rows arranged in descending score order;
the relative order of equal-scored rows is left unspecified by the unstable
default sort. -/
theorem rank_descending_spec (w : List (String × ℝ)) (cat : List Row) (u : Fin 4 → Int)
    (n : Nat) (method : String) (out : List ((Nat × Row) × ℝ))
    (h : rank_services w cat u n method out) :
    ∃ scores, rankScores w cat u method = .ok scores ∧
      SortedDesc out ∧ out.length = min n cat.length ∧
      ∀ p ∈ out, p ∈ cat.enum.zip scores := by
  obtain ⟨scores, sorted, hok, hperm, hsort, hout⟩ := h
  refine ⟨scores, hok, ?_, ?_, ?_⟩
  · rw [hout]
    exact hsort.take n
  · exact rank_output_length w cat u n method out ⟨scores, sorted, hok, hperm, hsort, hout⟩
  · intro p hp
    rw [hout] at hp
    exact hperm.subset (List.take_subset n sorted hp)

/-- Witness for `rank_descending_spec` on a concrete one-row run. -/
theorem rank_descending_spec_witness :
    rank_services (defaultWeights (α := ℝ)) [rowTech] rowTech.codes 5 "weighted"
        [((0, rowTech), tieScore)] ∧
      ∃ scores, rankScores (defaultWeights (α := ℝ)) [rowTech] rowTech.codes "weighted" =
          .ok scores ∧
        SortedDesc [((0, rowTech), tieScore)] ∧
        ([((0, rowTech), tieScore)] : List ((Nat × Row) × ℝ)).length =
          min 5 ([rowTech] : List Row).length ∧
        ∀ p ∈ ([((0, rowTech), tieScore)] : List ((Nat × Row) × ℝ)),
          p ∈ ([rowTech] : List Row).enum.zip scores :=
  ⟨rank_inst_single,
   rank_descending_spec (defaultWeights (α := ℝ)) [rowTech] rowTech.codes 5 "weighted"
     [((0, rowTech), tieScore)] rank_inst_single⟩

/-! ### C10: candidates are always the whole catalog -/

/-- C10: `rank_services` scores every row of the full encoded catalog (one
score per row) and selects the top `n` from all of them: the scored pool is a
permutation of the complete indexed catalog — the business-type pre-filter
`filter_services` plays no part (the scoring relation does not consult the
preference strings at all) — and every excluded row scores no higher than
every returned row. -/
theorem rank_full_candidates (w : List (String × ℝ)) (cat : List Row) (u : Fin 4 → Int)
    (n : Nat) (method : String) (out : List ((Nat × Row) × ℝ))
    (h : rank_services w cat u n method out) :
    ∃ (scores : List ℝ) (sorted : List ((Nat × Row) × ℝ)),
      rankScores w cat u method = .ok scores ∧
      scores.length = cat.length ∧
      (sorted.map Prod.fst).Perm cat.enum ∧
      out = sorted.take n ∧
      ∀ a ∈ out, ∀ b ∈ sorted.drop n, b.2 ≤ a.2 := by
  obtain ⟨scores, sorted, hok, hperm, hsort, hout⟩ := h
  have hlen : scores.length = cat.length := rankScores_length w cat u method scores hok
  refine ⟨scores, sorted, hok, hlen, ?_, hout, ?_⟩
  · have hz : (cat.enum.zip scores).map Prod.fst = cat.enum :=
      List.map_fst_zip _ _ (by rw [List.enum_length, hlen])
    rw [← hz]
    exact hperm.map Prod.fst
  · haveI : IsTrans ((Nat × Row) × ℝ) (fun a b => b.2 ≤ a.2) :=
      ⟨fun _ _ _ h1 h2 => le_trans h2 h1⟩
    have hpw : sorted.Pairwise (fun a b => b.2 ≤ a.2) := List.chain'_iff_pairwise.mp hsort
    intro a ha b hb
    rw [← List.take_append_drop n sorted, List.pairwise_append] at hpw
    exact hpw.2.2 a (hout ▸ ha) b hb

/-- Witness for `rank_full_candidates` on a concrete one-row run. -/
theorem rank_full_candidates_witness :
    rank_services (defaultWeights (α := ℝ)) [rowTech] rowTech.codes 5 "weighted"
        [((0, rowTech), tieScore)] ∧
      ∃ (scores : List ℝ) (sorted : List ((Nat × Row) × ℝ)),
        rankScores (defaultWeights (α := ℝ)) [rowTech] rowTech.codes "weighted" =
            .ok scores ∧
          scores.length = ([rowTech] : List Row).length ∧
          (sorted.map Prod.fst).Perm ([rowTech] : List Row).enum ∧
          [((0, rowTech), tieScore)] = sorted.take 5 ∧
          ∀ a ∈ ([((0, rowTech), tieScore)] : List ((Nat × Row) × ℝ)),
            ∀ b ∈ sorted.drop 5, b.2 ≤ a.2 :=
  ⟨rank_inst_single,
   rank_full_candidates (defaultWeights (α := ℝ)) [rowTech] rowTech.codes 5 "weighted"
     [((0, rowTech), tieScore)] rank_inst_single⟩

/-! ### C8: encoder codes and the unknown sentinel -/

/-- Values present in a list encode to a non-negative index. -/
theorem safe_encode_nonneg {x : String} :
    ∀ {l : List String}, x ∈ l → 0 ≤ safe_encode l x
  | v :: rest, hm => by
    rw [safe_encode]
    split
    · exact le_refl 0
    · next hne =>
      have hr : x ∈ rest := by
        rcases List.mem_cons.mp hm with h | h
        · exact absurd h hne
        · exact h
      have h0 : 0 ≤ safe_encode rest x := safe_encode_nonneg hr
      split
      · next he => rw [he] at h0; exact absurd h0 (by decide)
      · omega

/-- Values absent from a list encode to the sentinel `-1`. -/
theorem safe_encode_not_mem {x : String} :
    ∀ {l : List String}, x ∉ l → safe_encode l x = -1
  | [], _ => rfl
  | v :: rest, hm => by
    rw [safe_encode]
    rw [if_neg (fun he : x = v => hm (by rw [he]; exact List.mem_cons_self v rest))]
    rw [safe_encode_not_mem (fun hr => hm (List.mem_cons_of_mem v hr))]
    rfl

/-- Two members of a list with the same code are the same value. -/
theorem safe_encode_injOn {x y : String} :
    ∀ {l : List String}, x ∈ l → y ∈ l →
      safe_encode l x = safe_encode l y → x = y
  | v :: rest, hx, hy, heq => by
    rw [safe_encode, safe_encode] at heq
    by_cases hxv : x = v <;> by_cases hyv : y = v
    · exact hxv.trans hyv.symm
    · exfalso
      rw [if_pos hxv, if_neg hyv] at heq
      have hyr : y ∈ rest := by
        rcases List.mem_cons.mp hy with h | h
        · exact absurd h hyv
        · exact h
      have h0 : 0 ≤ safe_encode rest y := safe_encode_nonneg hyr
      split at heq
      · exact absurd heq (by decide)
      · omega
    · exfalso
      rw [if_neg hxv, if_pos hyv] at heq
      have hxr : x ∈ rest := by
        rcases List.mem_cons.mp hx with h | h
        · exact absurd h hxv
        · exact h
      have h0 : 0 ≤ safe_encode rest x := safe_encode_nonneg hxr
      split at heq
      · exact absurd heq (by decide)
      · omega
    · have hxr : x ∈ rest := by
        rcases List.mem_cons.mp hx with h | h
        · exact absurd h hxv
        · exact h
      have hyr : y ∈ rest := by
        rcases List.mem_cons.mp hy with h | h
        · exact absurd h hyv
        · exact h
      have hx0 : 0 ≤ safe_encode rest x := safe_encode_nonneg hxr
      have hy0 : 0 ≤ safe_encode rest y := safe_encode_nonneg hyr
      rw [if_neg hxv, if_neg hyv] at heq
      refine safe_encode_injOn hxr hyr ?_
      split at heq <;> split at heq <;> omega

/-- C8: for any fitted vocabulary, every member's code is non-negative, codes
are pairwise distinct across distinct members, any value outside the
vocabulary encodes to the sentinel `-1` (with no failure and, the embedding
being purely functional, no mutation of the vocabulary), and the sentinel
never coincides with a member's code. -/
theorem encoder_codes_spec (values : List String) :
    (∀ x ∈ fitVocab values, 0 ≤ safe_encode (fitVocab values) x) ∧
      (∀ x ∈ fitVocab values, ∀ y ∈ fitVocab values,
        x ≠ y → safe_encode (fitVocab values) x ≠ safe_encode (fitVocab values) y) ∧
      (∀ x, x ∉ fitVocab values → safe_encode (fitVocab values) x = -1) ∧
      (∀ x ∈ fitVocab values, safe_encode (fitVocab values) x ≠ -1) := by
  refine ⟨fun x hx => safe_encode_nonneg hx,
    fun x hx y hy hne heq => hne (safe_encode_injOn hx hy heq),
    fun x hx => safe_encode_not_mem hx,
    fun x hx heq => ?_⟩
  have h0 : 0 ≤ safe_encode (fitVocab values) x := safe_encode_nonneg hx
  exact absurd (heq ▸ h0) (by decide)

/-- Witness for `encoder_codes_spec` on a concrete catalog column: the fitted
vocabulary of `["Technology", "Finance", "Technology"]` is
`["Finance", "Technology"]`; both members receive distinct non-negative
codes and the unseen value `Aviation` encodes to `-1`. -/
theorem encoder_codes_spec_witness :
    fitVocab (["Technology", "Finance", "Technology"]) = ["Finance", "Technology"] ∧
      0 ≤ safe_encode (fitVocab (["Technology", "Finance", "Technology"])) ("Finance") ∧
      safe_encode (fitVocab (["Technology", "Finance", "Technology"])) ("Finance") ≠
        safe_encode (fitVocab (["Technology", "Finance", "Technology"])) ("Technology") ∧
      safe_encode (fitVocab (["Technology", "Finance", "Technology"])) ("Aviation") = -1 :=
  ⟨by decide,
   (encoder_codes_spec (["Technology", "Finance", "Technology"])).1 ("Finance") (by decide),
   (encoder_codes_spec (["Technology", "Finance", "Technology"])).2.1 ("Finance") (by decide)
     ("Technology") (by decide) (by decide),
   (encoder_codes_spec (["Technology", "Finance", "Technology"])).2.2.1 ("Aviation")
     (by decide)⟩

/-! ### C9: user-side versus catalog-side standardization -/

/-- Packing a small code point into a `Char` and back is the identity. -/
theorem toNat_ofNat_valid {n : Nat} (h : n < 55296) : (Char.ofNat n).toNat = n := by
  have hv : n.isValidChar := Or.inl h
  rw [Char.ofNat, dif_pos hv]
  rfl

/-- Lower-casing is idempotent on characters. -/
theorem lowerChar_lowerChar (c : Char) : lowerChar (lowerChar c) = lowerChar c := by
  by_cases h : 65 ≤ c.toNat ∧ c.toNat ≤ 90
  · have e1 : lowerChar c = Char.ofNat (c.toNat + 32) := by rw [lowerChar, if_pos h]
    have ht : (Char.ofNat (c.toNat + 32)).toNat = c.toNat + 32 :=
      toNat_ofNat_valid (by omega)
    rw [e1, lowerChar, ht, if_neg (by omega)]
  · have e1 : lowerChar c = c := by rw [lowerChar, if_neg h]
    rw [e1, e1]

/-- Upper-casing absorbs a preceding lower-casing. -/
theorem upperChar_lowerChar (c : Char) : upperChar (lowerChar c) = upperChar c := by
  by_cases h : 65 ≤ c.toNat ∧ c.toNat ≤ 90
  · have e1 : lowerChar c = Char.ofNat (c.toNat + 32) := by rw [lowerChar, if_pos h]
    have ht : (Char.ofNat (c.toNat + 32)).toNat = c.toNat + 32 :=
      toNat_ofNat_valid (by omega)
    have e2 : upperChar c = c := by rw [upperChar, if_neg (by omega)]
    rw [e1, e2, upperChar, ht, if_pos (by omega)]
    have h32 : c.toNat + 32 - 32 = c.toNat := by omega
    rw [h32, Char.ofNat_toNat]
  · have e1 : lowerChar c = c := by rw [lowerChar, if_neg h]
    rw [e1]

/-- Lower-casing preserves letterhood. -/
theorem alphaChar_lowerChar (c : Char) : alphaChar (lowerChar c) = alphaChar c := by
  by_cases h : 65 ≤ c.toNat ∧ c.toNat ≤ 90
  · have e1 : lowerChar c = Char.ofNat (c.toNat + 32) := by rw [lowerChar, if_pos h]
    have ht : (Char.ofNat (c.toNat + 32)).toNat = c.toNat + 32 :=
      toNat_ofNat_valid (by omega)
    rw [e1, alphaChar, alphaChar, ht]
    have h1 : ((65 ≤ c.toNat + 32 ∧ c.toNat + 32 ≤ 90) ∨
        (97 ≤ c.toNat + 32 ∧ c.toNat + 32 ≤ 122)) := by omega
    have h2 : ((65 ≤ c.toNat ∧ c.toNat ≤ 90) ∨ (97 ≤ c.toNat ∧ c.toNat ≤ 122)) := by omega
    rw [decide_eq_true h1, decide_eq_true h2]
  · have e1 : lowerChar c = c := by rw [lowerChar, if_neg h]
    rw [e1]

/-- A non-letter character is untouched by lower-casing. -/
theorem lowerChar_of_not_alpha {c : Char} (h : alphaChar c = false) : lowerChar c = c := by
  rw [alphaChar] at h
  rw [lowerChar, if_neg ?_]
  intro hc
  rw [decide_eq_false_iff_not] at h
  exact h (Or.inl hc)

/-- Title-casing does not see a preceding lower-casing of the word. -/
theorem titleAux_map_lower : ∀ (b : Bool) (l : List Char),
    titleAux b (l.map lowerChar) = titleAux b l
  | _, [] => rfl
  | b, c :: cs => by
    rw [List.map_cons, titleAux, titleAux, alphaChar_lowerChar]
    rcases ha : alphaChar c with _ | _
    · rw [lowerChar_of_not_alpha ha, titleAux_map_lower]
      simp
    · rw [if_pos rfl, if_pos rfl, lowerChar_lowerChar, upperChar_lowerChar,
        titleAux_map_lower]

/-- `title(lower(s)) = title(s)`: Python's `str.title` is insensitive to the
input's case. -/
theorem titleStr_lowerStr (s : String) : titleStr (lowerStr s) = titleStr s := by
  rw [titleStr, lowerStr, titleStr]
  exact congrArg String.mk (titleAux_map_lower false s.data)

/-- C9 (counterexample): the user-side standardization lacks the catalog's
synonym tables, so `bilingual` becomes `Bilingual` (not `Both`) and `online`
becomes `Online` (not `Remote`) for a user preference, while the catalog side
canonicalizes both. -/
theorem standardize_diverges :
    standardize_input .language ("bilingual") = "Bilingual" ∧
      standardize_categories .language ("bilingual") = "Both" ∧
      standardize_input .language ("bilingual") ≠
        standardize_categories .language ("bilingual") ∧
      standardize_input .location ("online") = "Online" ∧
      standardize_categories .location ("online") = "Remote" := by
  refine ⟨by decide, by decide, ?_, by decide, by decide⟩
  decide

/-- C9 (amended): user-side and catalog-side standardization agree on every
value that avoids the catalog-only synonym keys — for the price column the
keys `med`, `cheap`, `affordable`, `expensive`, for the language column the
keys `bilingual`, `hindi/english`, `english/hindi`, and for the location
column the title-cased synonyms `Online`, `Virtual`, `Anywhere`; on those
keys the two sides diverge (see the counterexample). -/
theorem standardize_agree (a : PrefAttr) (s : String)
    (hprice : a = .price →
      lowerStr s ∉ (["med", "cheap", "affordable", "expensive"] : List String))
    (hlang : a = .language →
      lowerStr s ∉ (["bilingual", "hindi/english", "english/hindi"] : List String))
    (hloc : a = .location →
      titleStr (stripStr s) ∉ (["Online", "Virtual", "Anywhere"] : List String)) :
    standardize_input a s = standardize_categories a s := by
  cases a
  · rfl
  · have hne := hprice rfl
    simp only [List.mem_cons, List.not_mem_nil, or_false, not_or] at hne
    obtain ⟨e1, e2, e3, e4⟩ := hne
    rw [standardize_input, standardize_categories]
    by_cases h1 : lowerStr s = "low"
    · rw [h1]
      rfl
    · by_cases h2 : lowerStr s = "medium"
      · rw [h2]
        rfl
      · by_cases h3 : lowerStr s = "high"
        · rw [h3]
          rfl
        · rw [priceUserPairs, priceCatalogPairs]
          simp only [List.lookup, beq_eq_false_iff_ne.mpr h1, beq_eq_false_iff_ne.mpr h2,
            beq_eq_false_iff_ne.mpr h3, beq_eq_false_iff_ne.mpr e1, beq_eq_false_iff_ne.mpr e2,
            beq_eq_false_iff_ne.mpr e3, beq_eq_false_iff_ne.mpr e4, Option.getD_none]
          exact (titleStr_lowerStr s).symm
  · have hne := hlang rfl
    simp only [List.mem_cons, List.not_mem_nil, or_false, not_or] at hne
    obtain ⟨e1, e2, e3⟩ := hne
    rw [standardize_input, standardize_categories]
    by_cases h1 : lowerStr s = "hindi"
    · rw [h1]
      rfl
    · by_cases h2 : lowerStr s = "english"
      · rw [h2]
        rfl
      · by_cases h3 : lowerStr s = "both"
        · rw [h3]
          rfl
        · rw [langUserPairs, langCatalogPairs]
          simp only [List.lookup, beq_eq_false_iff_ne.mpr h1, beq_eq_false_iff_ne.mpr h2,
            beq_eq_false_iff_ne.mpr h3, beq_eq_false_iff_ne.mpr e1, beq_eq_false_iff_ne.mpr e2,
            beq_eq_false_iff_ne.mpr e3, Option.getD_none]
          exact (titleStr_lowerStr s).symm
  · have hne := hloc rfl
    simp only [List.mem_cons, List.not_mem_nil, or_false, not_or] at hne
    obtain ⟨e1, e2, e3⟩ := hne
    rw [standardize_input, standardize_categories, locationReplace,
      if_neg (by tauto)]

/-- Witness for `standardize_agree`: the shared language key `both` (here in
upper case) standardizes identically on both sides. -/
theorem standardize_agree_witness :
    lowerStr ("BOTH") ∉ (["bilingual", "hindi/english", "english/hindi"] : List String) ∧
      standardize_input .language ("BOTH") = standardize_categories .language ("BOTH") :=
  ⟨by decide,
   standardize_agree .language ("BOTH") (by intro h; cases h) (fun _ => by decide)
     (by intro h; cases h)⟩

/-! ### C3: bounds of the match score per method -/

/-- At most four exact matches can be counted. -/
theorem exact_count_le_four (uIn rAttr : String → Option String) :
    (featureNames.filter (isExactMatch uIn rAttr)).length ≤ 4 :=
  le_trans (List.length_filter_le _ _) (by rw [featureNames]; rfl)

/-- The exact-match bonus of `calculate_match_score` is non-negative, hence
the bounded score never drops below any lower bound of the raw score that is
itself at most `1`. -/
theorem le_calculate_match_score {α : Type} [LinearOrderedField α]
    (uIn rAttr : String → Option String) {sim L : α} (hL : L ≤ 1) (hsim : L ≤ sim) :
    L ≤ calculate_match_score uIn rAttr sim := by
  rw [calculate_match_score]
  refine le_min hL (le_trans hsim ?_)
  have h0 : (0:α) ≤ ((exactMatchesAux uIn rAttr featureNames 0 : α) / 4) * (2/10) := by
    positivity
  linarith

/-- The bounded match score never exceeds `1`. -/
theorem calculate_match_score_le_one {α : Type} [LinearOrderedField α]
    (uIn rAttr : String → Option String) (sim : α) :
    calculate_match_score uIn rAttr sim ≤ 1 := by
  rw [calculate_match_score]
  exact min_le_left _ _

/-- A strictly positive raw score keeps the bounded match score strictly
positive. -/
theorem calculate_match_score_pos {α : Type} [LinearOrderedField α]
    (uIn rAttr : String → Option String) {sim : α} (hsim : 0 < sim) :
    0 < calculate_match_score uIn rAttr sim := by
  rw [calculate_match_score]
  refine lt_min one_pos (add_pos_of_pos_of_nonneg hsim ?_)
  positivity

/-- Each default weight is non-negative. -/
theorem defaultWeights_nonneg {α : Type} [LinearOrderedField α] (i : Fin 4) :
    0 ≤ weightsGet (defaultWeights (α := α)) (attrName i) := by
  fin_cases i <;>
    · simp [weightsGet, defaultWeights, attrName, List.lookup]
      norm_num

/-- The weighted score of any row under the default weights lies in `[0, 1]`. -/
theorem weightedRowScore_default_mem_Icc (u codes : Fin 4 → Int) :
    0 ≤ weightedRowScore (defaultWeights (α := ℝ)) u codes ∧
      weightedRowScore (defaultWeights (α := ℝ)) u codes ≤ 1 := by
  rw [weightedRowScore_eq_sum]
  constructor
  · refine Finset.sum_nonneg fun i _ => ?_
    split
    · exact defaultWeights_nonneg i
    · exact le_refl 0
  · have hle : ∀ i ∈ Finset.univ, (if codes i = u i
        then weightsGet (defaultWeights (α := ℝ)) (attrName i) else 0) ≤
          weightsGet (defaultWeights (α := ℝ)) (attrName i) := by
      intro i _
      split
      · exact le_refl _
      · exact defaultWeights_nonneg i
    refine le_trans (Finset.sum_le_sum hle) ?_
    rw [Fin.sum_univ_four]
    simp [weightsGet, defaultWeights, attrName, List.lookup]
    norm_num

/-- Cosine similarity lies in `[-1, 1]` (Cauchy–Schwarz; a zero norm yields
`0`). -/
theorem cosineSim_mem_Icc (u v : Fin 4 → Int) :
    -1 ≤ cosineSim u v ∧ cosineSim u v ≤ 1 := by
  have habs : |cosineSim u v| ≤ 1 := by
    rw [cosineSim]
    rcases eq_or_lt_of_le
        (mul_nonneg (Real.sqrt_nonneg (∑ i, (u i : ℝ) ^ 2))
          (Real.sqrt_nonneg (∑ i, (v i : ℝ) ^ 2)) :
          (0:ℝ) ≤ vecNorm u * vecNorm v) with h | h
    · rw [← h]
      simp
    · rw [abs_div, abs_of_pos h, div_le_one h]
      have hup : dotProd u v ≤ vecNorm u * vecNorm v := by
        rw [dotProd, vecNorm, vecNorm]
        exact Real.sum_mul_le_sqrt_mul_sqrt Finset.univ _ _
      have hdn : -(vecNorm u * vecNorm v) ≤ dotProd u v := by
        have hneg := Real.sum_mul_le_sqrt_mul_sqrt Finset.univ
          (fun i => -(u i : ℝ)) (fun i => (v i : ℝ))
        simp only [neg_mul, Finset.sum_neg_distrib, neg_sq] at hneg
        rw [dotProd, vecNorm, vecNorm]
        linarith
      exact abs_le.mpr ⟨hdn, hup⟩
  exact abs_le.mp habs

/-- The nearest-neighbour similarity lies in `(0, 1]`. -/
theorem knnSim_mem_Ioc (u v : Fin 4 → Int) : 0 < knnSim u v ∧ knnSim u v ≤ 1 := by
  have hd : 0 ≤ euclidDist u v := Real.sqrt_nonneg _
  constructor
  · rw [knnSim]
    positivity
  · rw [knnSim, div_le_one (by positivity)]
    linarith

/-- C3 (amended): under the default weights the `weighted` method's bounded
match score lies in `[0, 1]`, and so does the `knn` method's (strictly above
`0`); the `cosine` method's bounded match score lies in `[-1, 1]` and can in
fact be negative when the user vector carries the unknown sentinel `-1` (see
the counterexample). -/
theorem match_score_range_by_method :
    (∀ (uIn rAttr : String → Option String) (cat : List Row) (u : Fin 4 → Int) (s : ℝ),
        s ∈ compute_weighted_similarity (defaultWeights (α := ℝ)) cat u →
          0 ≤ calculate_match_score uIn rAttr s ∧ calculate_match_score uIn rAttr s ≤ 1) ∧
      (∀ (uIn rAttr : String → Option String) (u v : Fin 4 → Int),
        -1 ≤ calculate_match_score uIn rAttr (cosineSim u v) ∧
          calculate_match_score uIn rAttr (cosineSim u v) ≤ 1) ∧
      (∀ (uIn rAttr : String → Option String) (u v : Fin 4 → Int),
        0 < calculate_match_score uIn rAttr (knnSim u v) ∧
          calculate_match_score uIn rAttr (knnSim u v) ≤ 1) := by
  refine ⟨fun uIn rAttr cat u s hs => ?_, fun uIn rAttr u v => ?_, fun uIn rAttr u v => ?_⟩
  · obtain ⟨r, _, rfl⟩ := List.mem_map.mp hs
    exact ⟨le_calculate_match_score uIn rAttr zero_le_one
      (weightedRowScore_default_mem_Icc u r.codes).1,
      calculate_match_score_le_one uIn rAttr _⟩
  · exact ⟨le_calculate_match_score uIn rAttr (by norm_num) (cosineSim_mem_Icc u v).1,
      calculate_match_score_le_one uIn rAttr _⟩
  · exact ⟨calculate_match_score_pos uIn rAttr (knnSim_mem_Ioc u v).1,
      calculate_match_score_le_one uIn rAttr _⟩

/-- Witness for `match_score_range_by_method` at a concrete weighted score. -/
theorem match_score_range_witness :
    weightedRowScore (defaultWeights (α := ℝ)) rowTech.codes rowTech.codes ∈
        compute_weighted_similarity (defaultWeights (α := ℝ)) [rowTech] rowTech.codes ∧
      0 ≤ calculate_match_score userAviation rowTech.attr
          (weightedRowScore (defaultWeights (α := ℝ)) rowTech.codes rowTech.codes) ∧
        calculate_match_score userAviation rowTech.attr
          (weightedRowScore (defaultWeights (α := ℝ)) rowTech.codes rowTech.codes) ≤ 1 := by
  have hmem : weightedRowScore (defaultWeights (α := ℝ)) rowTech.codes rowTech.codes ∈
      compute_weighted_similarity (defaultWeights (α := ℝ)) [rowTech] rowTech.codes := by
    simp [compute_weighted_similarity]
  exact ⟨hmem, (match_score_range_by_method).1 userAviation rowTech.attr [rowTech]
    rowTech.codes _ hmem⟩

/-- C3 (counterexample): on the catalog `catC3`, the preference dict
`userAviation` (an unknown business type) encodes to the sentinel-carrying
vector `uvecAviation`; the `cosine` method may recommend `rowTech` with raw
score `-1`, whose bounded match score is `-0.85 < 0` — outside `[0, 1]`. -/
theorem cosine_match_score_negative :
    (∀ i, get_feature_vector (fun j => fitVocab (catC3.map (fun r => r.value j)))
        userAviation i = uvecAviation i) ∧
      rank_services (defaultWeights (α := ℝ)) catC3 uvecAviation 2 "cosine" cosOut ∧
      ((0, rowTech), (-1 : ℝ)) ∈ cosOut ∧
      calculate_match_score userAviation rowTech.attr (-1 : ℝ) < 0 := by
  have hcosT : cosineSim uvecAviation rowTech.codes = -1 := by
    rw [cosineSim]
    simp [dotProd, vecNorm, Fin.sum_univ_four, uvecAviation, rowTech]
  have hcosF : cosineSim uvecAviation rowFin.codes = 0 := by
    rw [cosineSim]
    simp [dotProd, Fin.sum_univ_four, uvecAviation, rowFin]
  refine ⟨?_, ?_, ?_, ?_⟩
  · decide
  · refine ⟨[cosineSim uvecAviation rowTech.codes, cosineSim uvecAviation rowFin.codes],
      cosOut, ?_, ?_, ?_, rfl⟩
    · simp [rankScores, compute_similarity_scores, catC3]
    · show cosOut.Perm [((0, rowTech), cosineSim uvecAviation rowTech.codes),
        ((1, rowFin), cosineSim uvecAviation rowFin.codes)]
      rw [hcosT, hcosF, cosOut]
      exact List.Perm.swap _ _ _
    · rw [SortedDesc, cosOut]
      exact List.chain'_pair.mpr (by norm_num)
  · rw [cosOut]
    exact List.mem_cons_of_mem _ (List.mem_singleton.mpr rfl)
  · have hcount : exactMatchesAux userAviation rowTech.attr featureNames 0 = 3 := by
      decide
    rw [calculate_match_score, hcount]
    rw [min_def]
    norm_num

end RecSys
